import Mathlib

/-!
# Verification of the BU-DiSC/ART adaptive radix tree

This development is a shallow embedding of `src/ART.h` (an adaptive radix
tree mapping fixed-width binary keys to integer values) together with the
benchmark driver's argument parsing, and proofs of the specified properties.

Modelling conventions:
* machine bytes and words are `Nat` (with explicit `% 2 ^ w` where the C++
  arithmetic wraps);
* the C++ arrays inside nodes are Lean lists of the same fixed physical
  length (prefix 9, Node4 keys/children 4, Node16 16, Node48 childIndex
  256 / children 48, Node256 children 256); `List.getD`/`List.set` model
  indexed reads and writes, and `memmove`/`memcpy` are modelled by the
  corresponding list surgery, including the stale bytes such moves leave
  behind beyond `count`;
* a `ArtNode*` value is `Option ArtNode`; the pseudo-leaf pointer tagging
  (`(tid << 1) | 1` on a 64-bit `uintptr_t`) is modelled by the `leaf`
  constructor carrying `tid % 2 ^ 63` (the high bit is lost by the shift);
* in-place mutation through `ArtNode**` slots becomes returning the new
  slot contents.
-/

namespace ART

/-- `maxPrefixLength` from ART.h: prefix bytes stored in the node header. -/
def maxPrefixLength : Nat := 9

/-- `emptyMarker` from ART.h: Node48 childIndex sentinel for an absent byte. -/
def emptyMarker : Nat := 48

/-- `flipSign`: XOR with 128, turning unsigned byte order into signed order
(used by Node16). -/
def flipSign (b : Nat) : Nat := b ^^^ 128

/-- `loadKey`: reconstructs the 8 big-endian key bytes of a tuple identifier
(`__builtin_bswap64` written through a `uint64_t*`).  Byte `i < 8` of the key
is byte `7 - i` of `tid`.  The C++ key buffers have `maxKeyLength` bytes and
bytes at index `≥ 8` are left uninitialized; the model returns 0 there. -/
def loadKey (tid : Nat) : Nat → Nat :=
  fun i => if i < 8 then tid / 2 ^ (8 * (7 - i)) % 256 else 0

/-- The node variants of ART.h.  Field order: the shared header
(`prefixLength`, `count`, `prefix[9]`) followed by the per-variant arrays.
`node48`'s fourth field is `childIndex[256]`. -/
inductive ArtNode : Type where
  | leaf (value : Nat)
  | node4 (prefixLength : Nat) (count : Nat) (pfx : List Nat)
      (keys : List Nat) (children : List (Option ArtNode))
  | node16 (prefixLength : Nat) (count : Nat) (pfx : List Nat)
      (keys : List Nat) (children : List (Option ArtNode))
  | node48 (prefixLength : Nat) (count : Nat) (pfx : List Nat)
      (childIndex : List Nat) (children : List (Option ArtNode))
  | node256 (prefixLength : Nat) (count : Nat) (pfx : List Nat)
      (children : List (Option ArtNode))

/-- `makeLeaf`: the pseudo-leaf `(tid << 1) | 1`; on a 64-bit `uintptr_t`
the stored payload is `tid % 2 ^ 63`. -/
def makeLeaf (tid : Nat) : ArtNode := .leaf (tid % 2 ^ 63)

/-- `isLeaf`: tests the tag bit. -/
def ArtNode.isLeaf : ArtNode → Bool
  | .leaf _ => true
  | _ => false

/-- `prefixLength` field of the shared header (0 for a pseudo-leaf, which
has no header; the C++ code never reads it on a leaf). -/
def ArtNode.prefixLength : ArtNode → Nat
  | .leaf _ => 0
  | .node4 pl _ _ _ _ => pl
  | .node16 pl _ _ _ _ => pl
  | .node48 pl _ _ _ _ => pl
  | .node256 pl _ _ _ => pl

/-- `count` field of the shared header. -/
def ArtNode.count : ArtNode → Nat
  | .leaf _ => 0
  | .node4 _ c _ _ _ => c
  | .node16 _ c _ _ _ => c
  | .node48 _ c _ _ _ => c
  | .node256 _ c _ _ => c

/-- `prefix[9]` array of the shared header. -/
def ArtNode.pfx : ArtNode → List Nat
  | .leaf _ => []
  | .node4 _ _ p _ _ => p
  | .node16 _ _ p _ _ => p
  | .node48 _ _ p _ _ => p
  | .node256 _ _ p _ => p

/-- The `child` array of an inner node. -/
def ArtNode.childrenL : ArtNode → List (Option ArtNode)
  | .leaf _ => []
  | .node4 _ _ _ _ cs => cs
  | .node16 _ _ _ _ cs => cs
  | .node48 _ _ _ _ cs => cs
  | .node256 _ _ _ cs => cs

/-- Overwrite the header fields `prefixLength` and `prefix` of an inner
node, as the C++ does through an `ArtNode*`. -/
def ArtNode.withHeader : ArtNode → Nat → List Nat → ArtNode
  | .leaf v, _, _ => .leaf v
  | .node4 _ c _ k cs, pl, p => .node4 pl c p k cs
  | .node16 _ c _ k cs, pl, p => .node16 pl c p k cs
  | .node48 _ c _ ci cs, pl, p => .node48 pl c p ci cs
  | .node256 _ c _ cs, pl, p => .node256 pl c p cs

/-- Replace slot `i` of an inner node's `child` array. -/
def ArtNode.setChild : ArtNode → Nat → Option ArtNode → ArtNode
  | .leaf v, _, _ => .leaf v
  | .node4 pl c p k cs, i, x => .node4 pl c p k (cs.set i x)
  | .node16 pl c p k cs, i, x => .node16 pl c p k (cs.set i x)
  | .node48 pl c p ci cs, i, x => .node48 pl c p ci (cs.set i x)
  | .node256 pl c p cs, i, x => .node256 pl c p (cs.set i x)

/-- `findChild`, returning the index of the child slot for `b` (the C++
returns a pointer to the slot; `none` models the shared `&nullNode`
sentinel).  Node4 scans `key[0..count)` linearly; Node16's SSE
compare-equal / movemask / ctz yields the least lane `i < count` whose
stored (sign-flipped) key equals `flipSign b`; Node48 indexes
`childIndex[b]`; Node256 always returns slot `b`. -/
def findChildIdx : ArtNode → Nat → Option Nat
  | .leaf _, _ => none
  | .node4 _ cnt _ keys _, b => (keys.take cnt).findIdx? (fun k => k == b)
  | .node16 _ cnt _ keys _, b =>
      (keys.take cnt).findIdx? (fun k => k == flipSign b)
  | .node48 _ _ _ ci _, b =>
      if ci.getD b emptyMarker ≠ emptyMarker then some (ci.getD b emptyMarker)
      else none
  | .node256 _ _ _ _, b => some b

/-- Contents of the slot `findChild` returns (`*findChild(n, b)`):
`none` when the slot is the null sentinel or holds a null child. -/
def findChild (n : ArtNode) (b : Nat) : Option ArtNode :=
  match findChildIdx n b with
  | none => none
  | some i => n.childrenL.getD i none

theorem sizeOf_getD_le (cs : List (Option ArtNode)) (i : Nat) :
    sizeOf (cs.getD i none) ≤ sizeOf cs := by
  induction cs generalizing i with
  | nil => simp [List.getD]
  | cons hd tl ih =>
      cases i with
      | zero =>
          simp only [List.getD_cons_zero, List.cons.sizeOf_spec]
          omega
      | succ j =>
          have := ih j
          simp only [List.getD_cons_succ, List.cons.sizeOf_spec]
          omega

theorem sizeOf_childrenL_le (n : ArtNode) :
    sizeOf n.childrenL ≤ sizeOf n := by
  cases n <;> simp [ArtNode.childrenL]

theorem sizeOf_findChild_le (n : ArtNode) (b : Nat) :
    sizeOf (findChild n b) ≤ sizeOf n := by
  have h2 := sizeOf_childrenL_le n
  have h3 : 1 ≤ sizeOf n := by cases n <;> simp <;> omega
  unfold findChild
  cases findChildIdx n b with
  | none => simpa using h3
  | some i =>
      have := sizeOf_getD_le n.childrenL i
      simp only
      omega

/-- `minimum`: value of the leftmost leaf below a node (`none` models the
C++ returning `NULL`).  Node48 scans `childIndex` for the first
non-sentinel byte, Node256 scans `child` for the first non-null slot; an
empty scan runs off the array in C++ (undefined), modelled as `none`. -/
def minimum : Option ArtNode → Option Nat
  | none => none
  | some (.leaf v) => some v
  | some (.node4 _ _ _ _ cs) => minimum (cs.getD 0 none)
  | some (.node16 _ _ _ _ cs) => minimum (cs.getD 0 none)
  | some (.node48 _ _ _ ci cs) =>
      match (List.range 256).find? (fun b => ci.getD b emptyMarker != emptyMarker) with
      | some b => minimum (cs.getD (ci.getD b emptyMarker) none)
      | none => none
  | some (.node256 _ _ _ cs) =>
      match (List.range 256).find? (fun b => (cs.getD b none).isSome) with
      | some b => minimum (cs.getD b none)
      | none => none
termination_by n => sizeOf n
decreasing_by
  all_goals simp only [Option.some.sizeOf_spec]
  · have := sizeOf_getD_le cs 0
    simp only [ArtNode.node4.sizeOf_spec]; omega
  · have := sizeOf_getD_le cs 0
    simp only [ArtNode.node16.sizeOf_spec]; omega
  · have := sizeOf_getD_le cs (ci.getD b emptyMarker)
    simp only [ArtNode.node48.sizeOf_spec]; omega
  · have := sizeOf_getD_le cs b
    simp only [ArtNode.node256.sizeOf_spec]; omega

/-- `leafMatches`: compare the reconstructed key of a leaf (value `l`)
against `key` on byte positions `[depth, keyLength)`; trivially true when
`depth == keyLength`. -/
def leafMatches (l : Nat) (key : Nat → Nat) (keyLength depth : Nat) : Bool :=
  if depth != keyLength then
    (List.range' depth (keyLength - depth)).all (fun i => loadKey l i == key i)
  else true

/-- First position `≥ start` (scanning `n` positions) where `p` and `q`
differ; `start + n` if they agree throughout. -/
def scanEq (p q : Nat → Nat) (start : Nat) : Nat → Nat
  | 0 => start
  | n + 1 => if p start = q start then scanEq p q (start + 1) n else start

/-- `prefixMismatch`: number of bytes of the node's compressed prefix
matching `key` from `depth` on.  For `prefixLength > maxPrefixLength`, the
first 9 bytes are compared against the stored prefix and the rest against
the reconstructed key of `minimum(node)` (`getLeafValue(NULL)` is 0, hence
`getD 0`). -/
def prefixMismatch (n : ArtNode) (key : Nat → Nat) (depth : Nat) : Nat :=
  if n.prefixLength > maxPrefixLength then
    let pos := scanEq (fun i => key (depth + i)) (fun i => n.pfx.getD i 0)
        0 maxPrefixLength
    if pos < maxPrefixLength then pos
    else
      let minKey := loadKey ((minimum (some n)).getD 0)
      scanEq (fun i => key (depth + i)) (fun i => minKey (depth + i))
        maxPrefixLength (n.prefixLength - maxPrefixLength)
  else
    scanEq (fun i => key (depth + i)) (fun i => n.pfx.getD i 0) 0 n.prefixLength

/-- The body of the optimistic `lookup` while-loop; `skipped` is the
`skippedPrefix` flag.  Returns the value of the found pseudo-leaf. -/
def lookupLoop (node : Option ArtNode) (key : Nat → Nat)
    (keyLength depth : Nat) (skipped : Bool) : Option Nat :=
  match node with
  | none => none
  | some (.leaf v) =>
      if !skipped && depth == keyLength then some v
      else if depth != keyLength then
        if (List.range' (if skipped then 0 else depth)
              (keyLength - (if skipped then 0 else depth))).all
            (fun i => loadKey v i == key i)
        then some v else none
      else some v
  | some n =>
      let pl := n.prefixLength
      if pl ≠ 0 then
        if pl < maxPrefixLength then
          if (List.range pl).all (fun pos => key (depth + pos) == n.pfx.getD pos 0)
          then lookupLoop (findChild n (key (depth + pl))) key keyLength
              (depth + pl + 1) skipped
          else none
        else lookupLoop (findChild n (key (depth + pl))) key keyLength
            (depth + pl + 1) true
      else lookupLoop (findChild n (key depth)) key keyLength (depth + 1) skipped
termination_by sizeOf node
decreasing_by
  all_goals
    simp only [Option.some.sizeOf_spec]
    exact lt_of_le_of_lt (sizeOf_findChild_le _ _) (by omega)

/-- `lookup`: optimistic search starting with `skippedPrefix = false`. -/
def lookup (node : Option ArtNode) (key : Nat → Nat) (keyLength depth : Nat) :
    Option Nat :=
  lookupLoop node key keyLength depth false

/-- `memmove`-style slot insertion used by `insertNode4`/`insertNode16`:
shift `l[pos..count)` one step right, then write `x` at `pos`.  Entries at
positions `> count` keep their old (stale) values, as in C++. -/
def insertSlot (l : List α) (pos count : Nat) (x : α) : List α :=
  l.take pos ++ x :: ((l.drop pos).take (count - pos)) ++ l.drop (count + 1)

/-- `memmove`-style slot removal used by `eraseNode4`/`eraseNode16`:
shift `l[pos+1..count)` one step left.  Position `count - 1` keeps its old
(stale) value, as in C++. -/
def removeSlot (l : List α) (pos count : Nat) : List α :=
  l.take pos ++ ((l.drop (pos + 1)).take (count - pos - 1)) ++ l.drop (count - 1)

/-- `memcpy(l + start, xs, xs.length)`. -/
def writeRange (l : List α) (start : Nat) (xs : List α) : List α :=
  l.take start ++ xs ++ l.drop (start + xs.length)

/-- `copyPrefix`: the stored prefix bytes a node with prefix length `pl` and
prefix array `p` contributes when copied into a freshly zero-initialized
node (`memcpy` of `min pl 9` bytes into a zeroed 9-byte array). -/
def copyPrefixL (pl : Nat) (p : List Nat) : List Nat :=
  p.take (min pl maxPrefixLength) ++
    List.replicate (maxPrefixLength - min pl maxPrefixLength) 0

/-- Number of initial positions `start, start+1, ...` where `p` and `q`
agree, scanning at most `fuel` positions.  Models the unbounded
`while (existingKey[depth+l] == key[depth+l]) l++` of `insert` (inserting a
duplicate key overruns the buffers — undefined behavior; the model stops
at the 8-byte key length). -/
def commonLen (p q : Nat → Nat) (start : Nat) : Nat → Nat
  | 0 => 0
  | n + 1 => if p start = q start then commonLen p q (start + 1) n + 1 else 0

/-- A freshly constructed `Node4`: all fields zero-initialized. -/
def zeroKeys4 : List Nat := List.replicate 4 0

/-- Fresh `Node4` child array (all null). -/
def zeroChildren4 : List (Option ArtNode) := List.replicate 4 none

/-- `insertNode256`: unconditional store. -/
def insertNode256 (pl cnt : Nat) (p : List Nat)
    (cs : List (Option ArtNode)) (b : Nat) (child : ArtNode) : ArtNode :=
  .node256 pl (cnt + 1) p (cs.set b (some child))

/-- `insertNode48`: free slot is `count` if empty, else the first null slot
(`List.findIdx` returns 48 if none exists, matching the C++ scan running
past the array — undefined, unreachable on well-formed nodes). -/
def insertNode48 (pl cnt : Nat) (p ci : List Nat)
    (cs : List (Option ArtNode)) (b : Nat) (child : ArtNode) : ArtNode :=
  if cnt < 48 then
    let pos := if (cs.getD cnt none).isSome then cs.findIdx (fun c => c.isNone)
      else cnt
    .node48 pl (cnt + 1) p (ci.set b pos) (cs.set pos (some child))
  else
    -- grow to Node256
    insertNode256 pl cnt (copyPrefixL pl p)
      ((List.range 256).map (fun i =>
        if ci.getD i emptyMarker ≠ emptyMarker then cs.getD (ci.getD i emptyMarker) none
        else none)) b child

/-- `insertNode16`: the SSE compare-less-than / movemask / ctz picks the
least `pos < count` whose stored key is (signed-)greater than the flipped
byte, which is the least `pos` with `b < flipSign keys[pos]`. -/
def insertNode16 (pl cnt : Nat) (p keys : List Nat)
    (cs : List (Option ArtNode)) (b : Nat) (child : ArtNode) : ArtNode :=
  if cnt < 16 then
    let pos := ((keys.take cnt).findIdx? (fun k => decide (b < flipSign k))).getD cnt
    .node16 pl (cnt + 1) p (insertSlot keys pos cnt (flipSign b))
      (insertSlot cs pos cnt (some child))
  else
    -- grow to Node48: children copied to the first 16 slots,
    -- childIndex[flipSign keys[i]] = i, copied prefix, count preserved
    insertNode48 pl cnt (copyPrefixL pl p)
      ((List.range cnt).foldl (fun ci i => ci.set (flipSign (keys.getD i 0)) i)
        (List.replicate 256 emptyMarker))
      (cs.take cnt ++ List.replicate (48 - cnt) none) b child

/-- `insertNode4` on fields `(prefixLength, count, prefix, keys, children)`:
insert `child` under byte `b`, growing to a `Node16` when full.  The
insertion position is the first `pos < count` with `¬ (keys[pos] < b)`. -/
def insertNode4 (pl cnt : Nat) (p keys : List Nat)
    (cs : List (Option ArtNode)) (b : Nat) (child : ArtNode) : ArtNode :=
  if cnt < 4 then
    let pos := ((keys.take cnt).findIdx? (fun k => decide (b ≤ k))).getD cnt
    .node4 pl (cnt + 1) p (insertSlot keys pos cnt b)
      (insertSlot cs pos cnt (some child))
  else
    -- grow to Node16: count 4, copied prefix, sign-flipped keys, children
    insertNode16 pl 4 (copyPrefixL pl p)
      ((keys.take 4).map flipSign ++ List.replicate 12 0)
      (cs.take cnt ++ List.replicate (16 - cnt) none) b child

/-- Apply `insertNode4` to a node statically known to be a `Node4` (the
second call in the leaf-split and prefix-split paths of `insert`; the
first call cannot grow the fresh node, so its result is a `Node4`). -/
def insertN4 (n : ArtNode) (b : Nat) (child : ArtNode) : ArtNode :=
  match n with
  | .node4 pl cnt p k cs => insertNode4 pl cnt p k cs b child
  | _ => n

/-- `insert(node, &slot, key, depth, value)`: returns the new contents of
`*slot`.

In the long-prefix split branch the C++ updates `node->prefixLength`,
calls `insertNode4(newNode, …, node)` and only then rewrites
`node->prefix` in place; since the new `Node4` holds a pointer to `node`,
the final state equals inserting the fully updated node, which is how the
model phrases it. -/
def insert (node : Option ArtNode) (key : Nat → Nat) (depth : Nat)
    (value : Nat) : ArtNode :=
  match node with
  | none => makeLeaf value
  | some (.leaf v) =>
      -- replace the leaf by a Node4 holding both leaves
      let existingKey := loadKey v
      let npl := commonLen existingKey key depth (8 - depth)
      let p4 := (List.range maxPrefixLength).map
        (fun i => if i < min npl maxPrefixLength then key (depth + i) else 0)
      let n1 := insertNode4 npl 0 p4 zeroKeys4 zeroChildren4
        (existingKey (depth + npl)) (.leaf v)
      insertN4 n1 (key (depth + npl)) (makeLeaf value)
  | some n =>
      let pl := n.prefixLength
      if pl ≠ 0 ∧ prefixMismatch n key depth ≠ pl then
        -- prefix differs: split
        let m := prefixMismatch n key depth
        let pNew := (List.range maxPrefixLength).map
          (fun i => if i < min m maxPrefixLength then n.pfx.getD i 0 else 0)
        if pl < maxPrefixLength then
          let node1 := n.withHeader (pl - (m + 1))
            ((List.range maxPrefixLength).map (fun i =>
              if i < min (pl - (m + 1)) maxPrefixLength then n.pfx.getD (m + 1 + i) 0
              else n.pfx.getD i 0))
          let n1 := insertNode4 m 0 pNew zeroKeys4 zeroChildren4
            (n.pfx.getD m 0) node1
          insertN4 n1 (key (depth + m)) (makeLeaf value)
        else
          let minKey := loadKey ((minimum (some n)).getD 0)
          let node1 := n.withHeader (pl - (m + 1))
            ((List.range maxPrefixLength).map (fun i =>
              if i < min (pl - (m + 1)) maxPrefixLength then minKey (depth + m + 1 + i)
              else n.pfx.getD i 0))
          let n1 := insertNode4 m 0 pNew zeroKeys4 zeroChildren4
            (minKey (depth + m)) node1
          insertN4 n1 (key (depth + m)) (makeLeaf value)
      else
        -- prefix fully matched (or no prefix): recurse
        let d := depth + pl
        match findChildIdx n (key d) with
        | some idx =>
            match hc : n.childrenL.getD idx none with
            | some c => n.setChild idx (some (insert (some c) key (d + 1) value))
            | none =>
                match n with
                | .node4 pl2 c2 p2 k2 cs2 =>
                    insertNode4 pl2 c2 p2 k2 cs2 (key d) (makeLeaf value)
                | .node16 pl2 c2 p2 k2 cs2 =>
                    insertNode16 pl2 c2 p2 k2 cs2 (key d) (makeLeaf value)
                | .node48 pl2 c2 p2 ci2 cs2 =>
                    insertNode48 pl2 c2 p2 ci2 cs2 (key d) (makeLeaf value)
                | .node256 pl2 c2 p2 cs2 =>
                    insertNode256 pl2 c2 p2 cs2 (key d) (makeLeaf value)
                | .leaf _ => n
        | none =>
            match n with
            | .node4 pl2 c2 p2 k2 cs2 =>
                insertNode4 pl2 c2 p2 k2 cs2 (key d) (makeLeaf value)
            | .node16 pl2 c2 p2 k2 cs2 =>
                insertNode16 pl2 c2 p2 k2 cs2 (key d) (makeLeaf value)
            | .node48 pl2 c2 p2 ci2 cs2 =>
                insertNode48 pl2 c2 p2 ci2 cs2 (key d) (makeLeaf value)
            | .node256 pl2 c2 p2 cs2 =>
                insertNode256 pl2 c2 p2 cs2 (key d) (makeLeaf value)
            | .leaf _ => n
termination_by sizeOf node
decreasing_by
  simp only [Option.some.sizeOf_spec]
  have h1 := sizeOf_getD_le n.childrenL idx
  have h2 := sizeOf_childrenL_le n
  rw [hc] at h1
  simp only [Option.some.sizeOf_spec] at h1
  omega

/-- `eraseNode4`: remove slot `pos`; when one child remains, collapse the
one-way node into that child, concatenating prefixes when the child is an
inner node.  Returns the new `*slot` (the C++ also handles `count`
dropping to 0, leaving the node in place). -/
def eraseNode4 (pl cnt : Nat) (p keys : List Nat)
    (cs : List (Option ArtNode)) (pos : Nat) : Option ArtNode :=
  let keys1 := removeSlot keys pos cnt
  let cs1 := removeSlot cs pos cnt
  if cnt - 1 = 1 then
    match cs1.getD 0 none with
    | some child =>
        if child.isLeaf then some child
        else
          -- concatenate prefixes into the parent's buffer, then copy over
          let s1 := if pl < maxPrefixLength then
              (p.set pl (keys1.getD 0 0), pl + 1)
            else (p, pl)
          let s2 := if s1.2 < maxPrefixLength then
              let l2 := min child.prefixLength (maxPrefixLength - s1.2)
              (writeRange s1.1 s1.2 (child.pfx.take l2), s1.2 + l2)
            else s1
          let newPfx := s2.1.take (min s2.2 maxPrefixLength) ++
            child.pfx.drop (min s2.2 maxPrefixLength)
          some (child.withHeader (child.prefixLength + pl + 1) newPfx)
    | none => none  -- C++ dereferences a null child pointer here (undefined)
  else some (.node4 pl (cnt - 1) p keys1 cs1)

/-- `eraseNode16`: remove slot `pos`; shrink to a `Node4` when the count
drops to 3 (copying all four key/child slots, including the stale one). -/
def eraseNode16 (pl cnt : Nat) (p keys : List Nat)
    (cs : List (Option ArtNode)) (pos : Nat) : ArtNode :=
  let keys1 := removeSlot keys pos cnt
  let cs1 := removeSlot cs pos cnt
  if cnt - 1 = 3 then
    .node4 pl (cnt - 1) (copyPrefixL pl p) ((keys1.take 4).map flipSign)
      (cs1.take 4)
  else .node16 pl (cnt - 1) p keys1 cs1

/-- `eraseNode48`: null the indexed slot, reset `childIndex[b]`, and shrink
to a `Node16` when the count drops to 12 by appending the present bytes in
ascending order (arriving sign-flipped and sorted). -/
def eraseNode48 (pl cnt : Nat) (p ci : List Nat)
    (cs : List (Option ArtNode)) (b : Nat) : ArtNode :=
  let cs1 := cs.set (ci.getD b emptyMarker) none
  let ci1 := ci.set b emptyMarker
  if cnt - 1 = 12 then
    let st := (List.range 256).foldl
      (fun (st : List Nat × List (Option ArtNode) × Nat) b2 =>
        if ci1.getD b2 emptyMarker ≠ emptyMarker then
          (st.1.set st.2.2 (flipSign b2),
           st.2.1.set st.2.2 (cs1.getD (ci1.getD b2 emptyMarker) none),
           st.2.2 + 1)
        else st)
      (List.replicate 16 0, List.replicate 16 none, 0)
    .node16 pl st.2.2 (copyPrefixL pl p) st.1 st.2.1
  else .node48 pl (cnt - 1) p ci1 cs1

/-- `eraseNode256`: null slot `b` and shrink to a `Node48` when the count
drops to 37, assigning slots to the present bytes in ascending order. -/
def eraseNode256 (pl cnt : Nat) (p : List Nat)
    (cs : List (Option ArtNode)) (b : Nat) : ArtNode :=
  let cs1 := cs.set b none
  if cnt - 1 = 37 then
    let st := (List.range 256).foldl
      (fun (st : List Nat × List (Option ArtNode) × Nat) b2 =>
        if (cs1.getD b2 none).isSome then
          (st.1.set b2 st.2.2, st.2.1.set st.2.2 (cs1.getD b2 none), st.2.2 + 1)
        else st)
      (List.replicate 256 emptyMarker, List.replicate 48 none, 0)
    .node48 pl st.2.2 (copyPrefixL pl p) st.1 st.2.1
  else .node256 pl (cnt - 1) p cs1

/-- `erase(node, &slot, key, keyLength, depth)`: returns the new `*slot`.
When the slot located by `findChild` holds a matching leaf, the child is
removed from the node; otherwise the C++ recurses into the slot (a no-op
when it is null or holds a non-matching leaf). -/
def erase (node : Option ArtNode) (key : Nat → Nat) (keyLength depth : Nat) :
    Option ArtNode :=
  match node with
  | none => none
  | some (.leaf v) =>
      if leafMatches v key keyLength depth then none else some (.leaf v)
  | some n =>
      if n.prefixLength ≠ 0 ∧ prefixMismatch n key depth ≠ n.prefixLength then
        some n
      else
        let d := depth + n.prefixLength
        match findChildIdx n (key d) with
        | none => some n  -- slot is &nullNode; recursion on NULL is a no-op
        | some idx =>
            match hc : n.childrenL.getD idx none with
            | some (.leaf v) =>
                if leafMatches v key keyLength d then
                  match n with
                  | .node4 pl2 c2 p2 k2 cs2 => eraseNode4 pl2 c2 p2 k2 cs2 idx
                  | .node16 pl2 c2 p2 k2 cs2 =>
                      some (eraseNode16 pl2 c2 p2 k2 cs2 idx)
                  | .node48 pl2 c2 p2 ci2 cs2 =>
                      some (eraseNode48 pl2 c2 p2 ci2 cs2 (key d))
                  | .node256 pl2 c2 p2 cs2 =>
                      some (eraseNode256 pl2 c2 p2 cs2 (key d))
                  | .leaf _ => some n
                else
                  -- recursion into the leaf re-checks at depth d+1
                  some (n.setChild idx
                    (erase (some (.leaf v)) key keyLength (d + 1)))
            | some c =>
                some (n.setChild idx (erase (some c) key keyLength (d + 1)))
            | none => some (n.setChild idx (erase none key keyLength (d + 1)))
termination_by sizeOf node
decreasing_by
  all_goals simp only [Option.some.sizeOf_spec]
  · have h1 := sizeOf_getD_le n.childrenL idx
    have h2 := sizeOf_childrenL_le n
    rw [hc] at h1
    simp only [Option.some.sizeOf_spec] at h1
    omega
  · have h1 := sizeOf_getD_le n.childrenL idx
    have h2 := sizeOf_childrenL_le n
    rw [hc] at h1
    simp only [Option.some.sizeOf_spec] at h1
    omega
  · have h2 := sizeOf_childrenL_le n
    have h3 : (1 : Nat) ≤ sizeOf n := by cases n <;> simp <;> omega
    simp
    omega

/-- `lookupPessimistic`: always verifies the full compressed prefix via
`prefixMismatch`. -/
def lookupPessimistic (node : Option ArtNode) (key : Nat → Nat)
    (keyLength depth : Nat) : Option Nat :=
  match node with
  | none => none
  | some (.leaf v) => if leafMatches v key keyLength depth then some v else none
  | some n =>
      if prefixMismatch n key depth ≠ n.prefixLength then none
      else lookupPessimistic (findChild n (key (depth + n.prefixLength))) key
          keyLength (depth + n.prefixLength + 1)
termination_by sizeOf node
decreasing_by
  simp only [Option.some.sizeOf_spec]
  exact lt_of_le_of_lt (sizeOf_findChild_le _ _) (by omega)

/-! ## C2: the optimistic lookup's behavior at a leaf -/

/-- **C2** counterexample: a leaf reached with `skippedPrefix` set and
`depth = keyLength` is returned without any comparison, although its
reconstructed key (value 1, last byte 1) differs from the all-zero search
key — the claim said the full comparison happens even in this case and the
leaf would be rejected. -/
theorem claim_C2_cex :
    lookupLoop (some (.leaf 1)) (fun _ => 0) 8 8 true = some 1 ∧
    ¬ (∀ i < 8, loadKey 1 i = 0) := by
  constructor
  · simp [lookupLoop]
  · intro h
    have := h 7 (by norm_num)
    simp [loadKey] at this

/-- **C2** (corrected): when the optimistic descent reaches a leaf with
`skippedPrefix` set, the leaf's key is reconstructed and compared from
byte 0 up to `keyLength` only when `depth ≠ keyLength`; when
`depth = keyLength` the leaf is returned without any comparison. -/
theorem claim_C2 (v : Nat) (key : Nat → Nat) (kl d : Nat) :
    lookupLoop (some (.leaf v)) key kl d true =
      if d = kl then some v
      else if ∀ i < kl, loadKey v i = key i then some v else none := by
  rw [lookupLoop]
  have hiff : ((List.range' 0 (kl - 0)).all (fun i => loadKey v i == key i) = true)
      ↔ (∀ i < kl, loadKey v i = key i) := by
    simp [List.all_eq_true, List.mem_range']
  by_cases h : d = kl
  · simp [h]
  · have hne : (d != kl) = true := by simp [h]
    simp only [Bool.not_true, Bool.false_and, Bool.false_eq_true, if_false, hne, if_true]
    split_ifs with h1 h2 h2 <;> simp_all

/-! ## Indexed-access helper lemmas -/

theorem getD_set_ne {α : Type} (l : List α) (i j : Nat) (x d : α) (h : i ≠ j) :
    (l.set i x).getD j d = l.getD j d := by
  simp [List.getD, List.getElem?_set_ne h]

theorem getD_set_self {α : Type} (l : List α) (i : Nat) (x d : α) (h : i < l.length) :
    (l.set i x).getD i d = x := by
  simp [List.getD, List.getElem?_set_self, h]

theorem getD_take_lt {α : Type} (l : List α) (i j : Nat) (d : α) (h : j < i) :
    (l.take i).getD j d = l.getD j d := by
  simp [List.getD, List.getElem?_take, h]

theorem getD_append_lt {α : Type} (l l2 : List α) (i : Nat) (d : α) (h : i < l.length) :
    (l ++ l2).getD i d = l.getD i d :=
  List.getD_append l l2 d i h

theorem getD_append_ge {α : Type} (l l2 : List α) (i : Nat) (d : α) (h : l.length ≤ i) :
    (l ++ l2).getD i d = l2.getD (i - l.length) d :=
  List.getD_append_right l l2 d i h

theorem removeSlot_two_getD_zero {α : Type} (l : List α) (d : α) (hl : l.length = 4)
    (p : Nat) (hp : p < 2) : (removeSlot l p 2).getD 0 d = l.getD (1 - p) d := by
  rcases l with _ | ⟨a, _ | ⟨b, _ | ⟨c, _ | ⟨e, _ | ⟨f, tl⟩⟩⟩⟩⟩ <;> simp at hl
  interval_cases p <;> simp [removeSlot]

theorem withHeader_childrenL (n : ArtNode) (pl : Nat) (p : List Nat) :
    (n.withHeader pl p).childrenL = n.childrenL := by
  cases n <;> rfl

theorem withHeader_count (n : ArtNode) (pl : Nat) (p : List Nat) :
    (n.withHeader pl p).count = n.count := by
  cases n <;> rfl

theorem withHeader_isLeaf (n : ArtNode) (pl : Nat) (p : List Nat) :
    (n.withHeader pl p).isLeaf = n.isLeaf := by
  cases n <;> rfl

theorem withHeader_prefixLength (n : ArtNode) (pl : Nat) (p : List Nat)
    (h : n.isLeaf = false) : (n.withHeader pl p).prefixLength = pl := by
  cases n <;> simp_all [ArtNode.isLeaf] <;> rfl

theorem withHeader_pfx (n : ArtNode) (pl : Nat) (p : List Nat)
    (h : n.isLeaf = false) : (n.withHeader pl p).pfx = p := by
  cases n <;> simp_all [ArtNode.isLeaf] <;> rfl

/-- **C5** (confirmed): erasing from a Node4 that leaves `count = 1`
replaces the node by its sole remaining child; when that child is an inner
node, its `prefixLength` grows by exactly `parent prefixLength + 1` and its
stored prefix becomes the first `min(new length, 9)` bytes of the
concatenation of the parent's compressed prefix, the remaining edge byte
`keys[0]`, and the child's old compressed prefix (`parentFull`/`childFull`
give those compressed paths; the hypotheses `hp`/`hc` are the stored-prefix
invariant). -/
theorem claim_C5 (pl : Nat) (pfx keys : List Nat) (cs : List (Option ArtNode))
    (pos : Nat) (child : ArtNode) (parentFull childFull : Nat → Nat)
    (hpos : pos < 2) (hcs : cs.getD (1 - pos) none = some child)
    (hplen : pfx.length = 9) (hclen : child.pfx.length = 9)
    (hkeys : keys.length = 4) (hcslen : cs.length = 4)
    (hchild : child.isLeaf = false)
    (hp : ∀ i, i < min pl 9 → pfx.getD i 0 = parentFull i)
    (hc : ∀ i, i < min child.prefixLength 9 → child.pfx.getD i 0 = childFull i) :
    ∃ res, eraseNode4 pl 2 pfx keys cs pos = some res ∧
      res.childrenL = child.childrenL ∧ res.count = child.count ∧
      res.isLeaf = false ∧
      res.prefixLength = child.prefixLength + pl + 1 ∧
      ∀ i, i < min (pl + 1 + child.prefixLength) 9 →
        res.pfx.getD i 0 =
          if i < pl then parentFull i
          else if i = pl then keys.getD (1 - pos) 0
          else childFull (i - (pl + 1)) := by
  have hcs1 := removeSlot_two_getD_zero cs none hcslen pos hpos
  rw [hcs] at hcs1
  have hk1 : (removeSlot keys pos 2).getD 0 0 = keys.getD (1 - pos) 0 :=
    removeSlot_two_getD_zero keys 0 hkeys pos hpos
  unfold eraseNode4
  simp only [hcs1, hchild]
  split_ifs
  all_goals try exact absurd trivial (by assumption)
  all_goals try exact False.elim (by assumption)
  · -- pl + 1 < 9: both concatenation steps run
    rename_i hA hB
    dsimp only at hB ⊢
    simp only [maxPrefixLength] at hA hB ⊢
    refine ⟨_, rfl, withHeader_childrenL _ _ _, withHeader_count _ _ _, ?_,
      withHeader_prefixLength _ _ _ hchild, ?_⟩
    · rw [withHeader_isLeaf]; exact hchild
    rw [withHeader_pfx _ _ _ hchild]
    intro i hi
    have hl2a := Nat.min_le_left child.prefixLength (9 - (pl + 1))
    have hl2b := Nat.min_le_right child.prefixLength (9 - (pl + 1))
    have hl2c : pl + 1 + child.prefixLength ⊓ (9 - (pl + 1)) ≤ 9 := by omega
    have hil : i < pl + 1 + child.prefixLength ⊓ (9 - (pl + 1)) := by omega
    have hWlen : (writeRange (pfx.set pl ((removeSlot keys pos 2).getD 0 0)) (pl + 1)
        (child.pfx.take (child.prefixLength ⊓ (9 - (pl + 1))))).length = 9 := by
      simp [writeRange, hplen, hclen]
      omega
    rw [getD_append_lt _ _ _ _ (by rw [List.length_take, hWlen]; omega)]
    have htake : (pl + 1 + child.prefixLength ⊓ (9 - (pl + 1))) ⊓ 9
        = pl + 1 + child.prefixLength ⊓ (9 - (pl + 1)) := by omega
    rw [htake]
    rw [getD_take_lt _ _ _ _ hil]
    unfold writeRange
    by_cases hi1 : i < pl + 1
    · rw [getD_append_lt _ _ _ _ (by simp [hplen, hclen]; omega)]
      rw [getD_append_lt _ _ _ _ (by simp [hplen]; omega)]
      rw [getD_take_lt _ _ _ _ hi1]
      by_cases hi2 : i < pl
      · rw [getD_set_ne _ _ _ _ _ (by omega)]
        rw [hp i (by omega)]
        rw [if_pos hi2]
      · have hieq : i = pl := by omega
        subst hieq
        rw [getD_set_self _ _ _ _ (by omega)]
        rw [hk1]
        rw [if_neg (by omega), if_pos rfl]
    · rw [getD_append_lt _ _ _ _ (by simp [hplen, hclen]; omega)]
      rw [getD_append_ge _ _ _ _ (by simp [hplen]; omega)]
      have hlen1 : ((pfx.set pl ((removeSlot keys pos 2).getD 0 0)).take (pl + 1)).length
          = pl + 1 := by simp [hplen]; omega
      rw [hlen1]
      rw [getD_take_lt _ _ _ _ (by omega)]
      rw [hc (i - (pl + 1)) (by omega)]
      rw [if_neg (by omega), if_neg (by omega)]
  · -- pl < 9 but pl + 1 = 9, i.e. pl = 8: only the key byte is appended
    rename_i hA hB
    dsimp only at hB ⊢
    simp only [maxPrefixLength] at hA hB ⊢
    have hpl8 : pl = 8 := by omega
    subst hpl8
    refine ⟨_, rfl, withHeader_childrenL _ _ _, withHeader_count _ _ _, ?_,
      withHeader_prefixLength _ _ _ hchild, ?_⟩
    · rw [withHeader_isLeaf]; exact hchild
    rw [withHeader_pfx _ _ _ hchild]
    intro i hi
    have hi9 : i < 9 := by omega
    rw [getD_append_lt _ _ _ _ (by simp [hplen]; omega)]
    rw [getD_take_lt _ _ _ _ (by omega)]
    by_cases hi2 : i < 8
    · rw [getD_set_ne _ _ _ _ _ (by omega)]
      rw [hp i (by omega)]
      rw [if_pos hi2]
    · have hieq : i = 8 := by omega
      subst hieq
      rw [getD_set_self _ _ _ _ (by omega)]
      rw [hk1]
      rw [if_neg (by omega), if_pos rfl]
  · -- pl ≥ 9: only the stored 9 parent bytes survive
    rename_i hA
    simp only [maxPrefixLength] at hA ⊢
    refine ⟨_, rfl, withHeader_childrenL _ _ _, withHeader_count _ _ _, ?_,
      withHeader_prefixLength _ _ _ hchild, ?_⟩
    · rw [withHeader_isLeaf]; exact hchild
    rw [withHeader_pfx _ _ _ hchild]
    intro i hi
    have hi9 : i < 9 := by omega
    have hm : pl ⊓ 9 = 9 := by omega
    rw [hm]
    rw [getD_append_lt _ _ _ _ (by simp [hplen]; omega)]
    rw [getD_take_lt _ _ _ _ (by omega)]
    rw [hp i (by omega)]
    rw [if_pos (by omega)]

end ART

namespace ART

def c5child : ArtNode :=
  .node4 2 2 [4, 6, 0, 0, 0, 0, 0, 0, 0] [1, 2, 0, 0]
    [some (.leaf 10), some (.leaf 11), none, none]

def c5cs : List (Option ArtNode) := [some (.leaf 1), some c5child, none, none]

theorem claim_C5_witness :
    ∃ res, eraseNode4 1 2 [7, 0, 0, 0, 0, 0, 0, 0, 0] [3, 5, 0, 0] c5cs 0 = some res ∧
      res.childrenL = c5child.childrenL ∧ res.count = c5child.count ∧
      res.isLeaf = false ∧
      res.prefixLength = c5child.prefixLength + 1 + 1 ∧
      ∀ i, i < min (1 + 1 + c5child.prefixLength) 9 →
        res.pfx.getD i 0 =
          if i < 1 then (fun _ => 7) i
          else if i = 1 then [3, 5, 0, 0].getD (1 - 0) 0
          else (fun j => if j = 0 then 4 else 6) (i - (1 + 1)) :=
  claim_C5 1 [7, 0, 0, 0, 0, 0, 0, 0, 0] [3, 5, 0, 0] c5cs 0 c5child
    (fun _ => 7) (fun j => if j = 0 then 4 else 6)
    (by norm_num) rfl rfl rfl rfl rfl rfl (by decide) (by decide)


/-! ## C6: `prefixMismatch` against the compressed path -/

theorem scanEq_spec (p q : Nat → Nat) (n : Nat) :
    ∀ start : Nat,
      start ≤ scanEq p q start n ∧ scanEq p q start n ≤ start + n ∧
      (∀ t, start ≤ t → t < scanEq p q start n → p t = q t) ∧
      (scanEq p q start n < start + n → p (scanEq p q start n) ≠ q (scanEq p q start n)) := by
  induction n with
  | zero =>
      intro s
      refine ⟨le_refl s, by simp [scanEq], fun t ht1 ht2 => by simp [scanEq] at ht2; omega,
        by simp [scanEq]⟩
  | succ n ih =>
      intro s
      rw [scanEq]
      by_cases h : p s = q s
      · rw [if_pos h]
        obtain ⟨h1, h2, h3, h4⟩ := ih (s + 1)
        refine ⟨by omega, by omega, ?_, by omega⟩
        intro t ht1 ht2
        rcases Nat.eq_or_lt_of_le ht1 with he | hlt
        · rw [← he]; exact h
        · exact h3 t (by omega) ht2
      · rw [if_neg h]
        exact ⟨le_refl s, by omega, fun t ht1 ht2 => absurd ht1 (by omega), fun _ => h⟩

/-- **C6** (confirmed): for an inner node whose stored prefix holds the
first `min(prefixLength, 9)` bytes of its compressed path `cp`, and (when
`prefixLength > 9`) whose minimum-leaf key agrees with `cp`,
`prefixMismatch` returns the position, relative to `depth`, of the first
byte where the key diverges from `cp`; the result equals `prefixLength`
iff the entire prefix matches. -/
theorem claim_C6 (n : ArtNode) (key cp : Nat → Nat) (depth : Nat)
    (_hinner : n.isLeaf = false)
    (hstored : ∀ i, i < min n.prefixLength maxPrefixLength → n.pfx.getD i 0 = cp i)
    (hmin : maxPrefixLength < n.prefixLength →
      ∀ i, i < n.prefixLength →
        loadKey ((minimum (some n)).getD 0) (depth + i) = cp i) :
    prefixMismatch n key depth ≤ n.prefixLength ∧
    (∀ t, t < prefixMismatch n key depth → key (depth + t) = cp t) ∧
    (prefixMismatch n key depth < n.prefixLength →
      key (depth + prefixMismatch n key depth) ≠ cp (prefixMismatch n key depth)) ∧
    (prefixMismatch n key depth = n.prefixLength ↔
      ∀ i, i < n.prefixLength → key (depth + i) = cp i) := by
  unfold prefixMismatch
  by_cases hgt : n.prefixLength > maxPrefixLength
  · rw [if_pos hgt]
    have hmin9 : min n.prefixLength maxPrefixLength = maxPrefixLength := by omega
    rw [hmin9] at hstored
    obtain ⟨s1a, s1b, s1c, s1d⟩ := scanEq_spec (fun i => key (depth + i))
      (fun i => n.pfx.getD i 0) maxPrefixLength 0
    by_cases hpos : scanEq (fun i => key (depth + i)) (fun i => n.pfx.getD i 0)
        0 maxPrefixLength < maxPrefixLength
    · rw [if_pos hpos]
      set r := scanEq (fun i => key (depth + i)) (fun i => n.pfx.getD i 0)
        0 maxPrefixLength with hr
      have hmis : key (depth + r) ≠ cp r := by
        have := s1d (by omega)
        simp only at this
        rw [hstored r (by omega)] at this
        exact this
      refine ⟨by omega, ?_, fun _ => hmis, ?_⟩
      · intro t ht
        have := s1c t (by omega) ht
        simp only at this
        rw [hstored t (by omega)] at this
        exact this
      · constructor
        · intro h; omega
        · intro hall
          exact absurd (hall r (by omega)) hmis
    · rw [if_neg hpos]
      obtain ⟨s2a, s2b, s2c, s2d⟩ := scanEq_spec (fun i => key (depth + i))
        (fun i => loadKey ((minimum (some n)).getD 0) (depth + i))
        (n.prefixLength - maxPrefixLength) maxPrefixLength
      set r2 := scanEq (fun i => key (depth + i))
        (fun i => loadKey ((minimum (some n)).getD 0) (depth + i))
        maxPrefixLength (n.prefixLength - maxPrefixLength) with hr2
      have hmatch : ∀ t, t < r2 → key (depth + t) = cp t := by
        intro t ht
        by_cases ht9 : t < maxPrefixLength
        · have := s1c t (by omega) (by omega)
          simp only at this
          rw [hstored t (by omega)] at this
          exact this
        · have := s2c t (by omega) ht
          simp only at this
          rw [hmin hgt t (by omega)] at this
          exact this
      refine ⟨by omega, hmatch, ?_, ?_⟩
      · intro hlt
        have := s2d (by omega)
        simp only at this
        rw [hmin hgt r2 (by omega)] at this
        exact this
      · constructor
        · intro h t ht
          exact hmatch t (by omega)
        · intro hall
          by_contra hne
          have hlt : r2 < n.prefixLength := by omega
          have := s2d (by omega)
          simp only at this
          rw [hmin hgt r2 (by omega)] at this
          exact this (hall r2 hlt)
  · rw [if_neg hgt]
    have hminpl : min n.prefixLength maxPrefixLength = n.prefixLength := by omega
    rw [hminpl] at hstored
    obtain ⟨s1a, s1b, s1c, s1d⟩ := scanEq_spec (fun i => key (depth + i))
      (fun i => n.pfx.getD i 0) n.prefixLength 0
    set r := scanEq (fun i => key (depth + i)) (fun i => n.pfx.getD i 0)
      0 n.prefixLength with hr
    have hmatch : ∀ t, t < r → key (depth + t) = cp t := by
      intro t ht
      have := s1c t (by omega) ht
      simp only at this
      rw [hstored t (by omega)] at this
      exact this
    refine ⟨by omega, hmatch, ?_, ?_⟩
    · intro hlt
      have := s1d (by omega)
      simp only at this
      rw [hstored r (by omega)] at this
      exact this
    · constructor
      · intro h t ht
        exact hmatch t (by omega)
      · intro hall
        by_contra hne
        have hlt : r < n.prefixLength := by omega
        have := s1d (by omega)
        simp only at this
        rw [hstored r (by omega)] at this
        exact this (hall r hlt)

/-- A small inner node used to instantiate C6: prefix length 2, one leaf
child holding value 0 (all of whose key bytes are 0). -/
def c6node : ArtNode :=
  .node4 2 1 (List.replicate 9 0) [0, 0, 0, 0]
    [some (.leaf 0), none, none, none]

/-- Witness for C6: a search key diverging from the all-zero compressed
path at byte 1. -/
theorem claim_C6_witness :
    prefixMismatch c6node (fun i => if i = 1 then 5 else 0) 0 ≤ c6node.prefixLength ∧
    (∀ t, t < prefixMismatch c6node (fun i => if i = 1 then 5 else 0) 0 →
      (fun i => if i = 1 then 5 else 0) (0 + t) = (fun _ => 0) t) ∧
    (prefixMismatch c6node (fun i => if i = 1 then 5 else 0) 0 < c6node.prefixLength →
      (fun i => if i = 1 then 5 else 0)
          (0 + prefixMismatch c6node (fun i => if i = 1 then 5 else 0) 0) ≠
        (fun _ => 0) (prefixMismatch c6node (fun i => if i = 1 then 5 else 0) 0)) ∧
    (prefixMismatch c6node (fun i => if i = 1 then 5 else 0) 0 = c6node.prefixLength ↔
      ∀ i, i < c6node.prefixLength →
        (fun i => if i = 1 then 5 else 0) (0 + i) = (fun _ => 0) i) :=
  claim_C6 c6node (fun i => if i = 1 then 5 else 0) (fun _ => 0) 0 rfl (by decide)
    (by intro h; exact absurd h (by decide))

/-! ## The portable `ctz` fallback (the non-`__GNUC__` branch) -/

/-- The Hacker's Delight fallback of `ctz` in ART.h: count trailing zeros
of a `uint16_t`, only defined for `x > 0`. -/
def ctzFallback (x : Nat) : Nat :=
  let s1 := if x &&& 0xFF = 0 then (1 + 8, x >>> 8) else (1, x)
  let s2 := if s1.2 &&& 0x0F = 0 then (s1.1 + 4, s1.2 >>> 4) else s1
  let s3 := if s2.2 &&& 0x03 = 0 then (s2.1 + 2, s2.2 >>> 2) else s2
  s3.1 - (s3.2 &&& 1)

/-- Reference trailing-zero count: 0 for odd (or zero) arguments, else one
more than the count of the half. -/
def tz (x : Nat) : Nat :=
  if x = 0 ∨ x % 2 = 1 then 0 else tz (x / 2) + 1
termination_by x
decreasing_by
  rename_i h
  push_neg at h
  omega

theorem tz_odd (x : Nat) (h : x % 2 = 1) : tz x = 0 := by
  rw [tz]
  simp [h]

theorem tz_even (x : Nat) (h0 : x ≠ 0) (h : x % 2 = 0) : tz x = tz (x / 2) + 1 := by
  rw [tz]
  have : ¬ (x = 0 ∨ x % 2 = 1) := by omega
  simp [this]

theorem tz_shift (k : Nat) :
    ∀ x : Nat, x ≠ 0 → x % 2 ^ k = 0 → tz x = k + tz (x / 2 ^ k) := by
  induction k with
  | zero => intro x _ _; simp
  | succ k ih =>
      intro x hx hmod
      obtain ⟨m, hm⟩ := Nat.dvd_of_mod_eq_zero hmod
      have hpow : (2 : Nat) ^ (k + 1) = 2 * 2 ^ k := by ring
      have h2 : x % 2 = 0 := by
        rw [hm, hpow, Nat.mul_assoc]
        simp [Nat.mul_mod_right]
      have hx2 : x / 2 = 2 ^ k * m := by
        rw [hm, hpow]
        rw [Nat.mul_assoc, Nat.mul_div_cancel_left _ (by norm_num : (0:Nat) < 2)]
      have hx2ne : x / 2 ≠ 0 := by
        rw [hx2]
        rintro h
        apply hx
        rw [hm, hpow]
        have := Nat.pos_pow_of_pos k (show 0 < 2 by norm_num)
        rcases Nat.mul_eq_zero.mp h with h | h
        · omega
        · rw [h]; ring
      have hmod2 : x / 2 % 2 ^ k = 0 := by
        rw [hx2]
        simp [Nat.mul_mod_right]
      rw [tz_even x hx h2, ih (x / 2) hx2ne hmod2, Nat.div_div_eq_div_mul, ← hpow]
      omega

theorem tz_one_mod (x : Nat) (h : x % 4 = 2) : tz x = 1 := by
  have h2 : x % 2 = 0 := by omega
  rw [tz_even x (by omega) h2, tz_odd (x / 2) (by omega)]

theorem tz_small (y : Nat) (h4 : y % 4 ≠ 0) : tz y = 1 - y % 2 := by
  rcases Nat.mod_two_eq_zero_or_one y with h | h
  · rw [tz_one_mod y (by omega)]
    omega
  · rw [tz_odd y h]
    omega

theorem ctzFallback_eq_tz (x : Nat) (h0 : 0 < x) (h16 : x < 2 ^ 16) :
    ctzFallback x = tz x := by
  have hFF : ∀ y : Nat, y &&& 0xFF = y % 256 := fun y => by
    have := Nat.and_pow_two_sub_one_eq_mod y 8; norm_num at this; exact this
  have hF : ∀ y : Nat, y &&& 0x0F = y % 16 := fun y => by
    have := Nat.and_pow_two_sub_one_eq_mod y 4; norm_num at this; exact this
  have h3 : ∀ y : Nat, y &&& 0x03 = y % 4 := fun y => by
    have := Nat.and_pow_two_sub_one_eq_mod y 2; norm_num at this; exact this
  have hs8 : ∀ y : Nat, y >>> 8 = y / 256 := fun y => by
    rw [Nat.shiftRight_eq_div_pow]
  have hs4 : ∀ y : Nat, y >>> 4 = y / 16 := fun y => by
    rw [Nat.shiftRight_eq_div_pow]
  have hs2 : ∀ y : Nat, y >>> 2 = y / 4 := fun y => by
    rw [Nat.shiftRight_eq_div_pow]
  simp only [ctzFallback, hFF, hF, h3, hs8, hs4, hs2, Nat.and_one_is_mod]
  norm_num at h16
  split_ifs with c1 c2 c3 c3 c2 c3 c3
  · norm_num at c2 c3 ⊢
    rw [tz_shift 8 x (by omega) (by norm_num; omega)]
    norm_num
    rw [tz_shift 4 (x / 256) (by omega) (by norm_num; omega)]
    norm_num
    rw [tz_shift 2 (x / 256 / 16) (by omega) (by norm_num; omega)]
    norm_num
    rw [tz_small (x / 256 / 16 / 4) (by omega)]
    omega
  · norm_num at c2 c3 ⊢
    rw [tz_shift 8 x (by omega) (by norm_num; omega)]
    norm_num
    rw [tz_shift 4 (x / 256) (by omega) (by norm_num; omega)]
    norm_num
    rw [tz_small (x / 256 / 16) (by omega)]
    omega
  · norm_num at c2 c3 ⊢
    rw [tz_shift 8 x (by omega) (by norm_num; omega)]
    norm_num
    rw [tz_shift 2 (x / 256) (by omega) (by norm_num; omega)]
    norm_num
    rw [tz_small (x / 256 / 4) (by omega)]
    omega
  · norm_num at c2 c3 ⊢
    rw [tz_shift 8 x (by omega) (by norm_num; omega)]
    norm_num
    rw [tz_small (x / 256) (by omega)]
    omega
  · norm_num at c2 c3 ⊢
    rw [tz_shift 4 x (by omega) (by norm_num; omega)]
    norm_num
    rw [tz_shift 2 (x / 16) (by omega) (by norm_num; omega)]
    norm_num
    rw [tz_small (x / 16 / 4) (by omega)]
    omega
  · norm_num at c2 c3 ⊢
    rw [tz_shift 4 x (by omega) (by norm_num; omega)]
    norm_num
    rw [tz_small (x / 16) (by omega)]
    omega
  · norm_num at c2 c3 ⊢
    rw [tz_shift 2 x (by omega) (by norm_num; omega)]
    norm_num
    rw [tz_small (x / 4) (by omega)]
    omega
  · norm_num at c2 c3 ⊢
    rw [tz_small x (by omega)]

theorem tz_spec (x : Nat) (h : x ≠ 0) : 2 ^ tz x ∣ x ∧ ¬ 2 ^ (tz x + 1) ∣ x := by
  induction x using Nat.strong_induction_on with
  | _ x ih =>
    rcases Nat.mod_two_eq_zero_or_one x with he | ho
    · have hx2 : x / 2 ≠ 0 := by omega
      have ihx := ih (x / 2) (by omega) hx2
      rw [tz_even x h he]
      have hx : x = 2 * (x / 2) := by omega
      constructor
      · obtain ⟨m, hm⟩ := ihx.1
        refine ⟨m, ?_⟩
        calc x = 2 * (x / 2) := hx
        _ = 2 * (2 ^ tz (x / 2) * m) := by conv_lhs => rw [hm]
        _ = 2 ^ (tz (x / 2) + 1) * m := by rw [pow_succ]; ring
      · rintro ⟨k, hk⟩
        apply ihx.2
        refine ⟨k, ?_⟩
        have h2 : x = 2 * (2 ^ (tz (x / 2) + 1) * k) := by
          conv_lhs => rw [hk]
          rw [pow_succ]
          ring
        conv_lhs => rw [h2]
        exact Nat.mul_div_cancel_left _ (by norm_num : (0:Nat) < 2)
    · rw [tz_odd x ho]
      refine ⟨one_dvd x, ?_⟩
      intro hdvd
      rw [pow_one] at hdvd
      omega

/-- **C10** (confirmed): for every 16-bit value `x > 0`, the portable
fallback branch of `ctz` returns the number of trailing zero bits of `x`
(equivalently the index of its lowest set bit, the value `__builtin_ctz`
computes): `2 ^ ctz x` divides `x` while `2 ^ (ctz x + 1)` does not. -/
theorem claim_C10 (x : Nat) (h1 : 0 < x) (h2 : x < 2 ^ 16) :
    2 ^ ctzFallback x ∣ x ∧ ¬ 2 ^ (ctzFallback x + 1) ∣ x := by
  rw [ctzFallback_eq_tz x h1 h2]
  exact tz_spec x (by omega)

/-- Witness for C10 at `x = 40` (trailing zeros: 3). -/
theorem claim_C10_witness :
    2 ^ ctzFallback 40 ∣ 40 ∧ ¬ 2 ^ (ctzFallback 40 + 1) ∣ 40 :=
  claim_C10 40 (by norm_num) (by norm_num)

/-! ## The benchmark driver's argument parsing (`main` in main.cpp) -/

/-- The driver's option variables (`verbose`, `N`, `input_file`). -/
structure DriverArgs where
  verbose : Bool
  n : Int
  inputFile : String

/-- Coarse model of `atoi`, used only for the `-N` argument (the claims do
not depend on its exact semantics). -/
def atoiModel (s : String) : Int := s.toInt?.getD 0

/-- The argument-parsing loop of `main`: while `i < argc`, `-v` consumes
one argument; `-N` consumes two and converts `argv[i + 1]`; `-f` consumes
two but assigns `argv[i]` — the flag itself — to `input_file`.  Any other
argument leaves `i` unchanged, so the C++ loop never terminates; this is
modelled by `none`. -/
def parseArgs (argv : List String) (argc : Nat) (i : Nat) (st : DriverArgs) :
    Option DriverArgs :=
  if i < argc then
    if argv.getD i "" = "-v" then
      parseArgs argv argc (i + 1) { st with verbose := true }
    else if argv.getD i "" = "-N" then
      parseArgs argv argc (i + 2) { st with n := atoiModel (argv.getD (i + 1) "") }
    else if argv.getD i "" = "-f" then
      parseArgs argv argc (i + 2) { st with inputFile := argv.getD i "" }
    else none
  else some st
termination_by argc - i
decreasing_by all_goals omega

/-- The file name the driver then passes to `read_bin`: parse from `i = 1`
with the defaults `verbose = false`, `N = 1000000`, `input_file = ""`. -/
def driverInputFile (argv : List String) : Option String :=
  (parseArgs argv argv.length 1 ⟨false, 1000000, ""⟩).map DriverArgs.inputFile

/-- **C9** (code bug): invoked as `main -f keys.bin`, the driver reads its
binary key input from the file named `-f` — the flag itself — not from
`keys.bin`, the argument that follows `-f` as the specification and the
loop's own comment require (`input_file = argv[i]` should be
`argv[i + 1]`). -/
theorem claim_C9 :
    driverInputFile ["main", "-f", "keys.bin"] = some "-f" ∧
    driverInputFile ["main", "-f", "keys.bin"] ≠ some "keys.bin" := by
  constructor
  · simp [driverInputFile, parseArgs, atoiModel]
  · simp [driverInputFile, parseArgs, atoiModel]

end ART

namespace ART

/-- Number of non-null slots of a child array. -/
def countSome (l : List (Option ArtNode)) : Nat := (l.filter (fun c => c.isSome)).length

theorem countSome_set_none (l : List (Option ArtNode)) (b : Nat)
    (hs : (l.getD b none).isSome) : countSome (l.set b none) + 1 = countSome l := by
  induction l generalizing b with
  | nil => simp [List.getD] at hs
  | cons a tl ih =>
      cases b with
      | zero =>
          simp only [List.getD_cons_zero] at hs
          simp [countSome, List.set, List.filter, hs]
      | succ j =>
          simp only [List.getD_cons_succ] at hs
          have := ih j hs
          simp only [countSome, List.set, List.filter] at this ⊢
          cases h : a.isSome <;> simp [h] <;> omega

theorem countSome_take_le (l : List (Option ArtNode)) (n : Nat) :
    countSome (l.take n) ≤ countSome l := by
  unfold countSome
  exact ((List.take_sublist n l).filter _).length_le

theorem countSome_take_succ (l : List (Option ArtNode)) (n : Nat) (h : n < l.length) :
    countSome (l.take (n + 1)) =
      countSome (l.take n) + (if (l.getD n none).isSome then 1 else 0) := by
  unfold countSome
  rw [List.take_succ]
  rw [List.filter_append, List.length_append]
  have hgd : l.getD n none = l[n] := by simp [List.getD, List.getElem?_eq_getElem h]
  rw [hgd, List.getElem?_eq_getElem h]
  congr 1
  rcases hx : l[n] with _ | c <;> simp [hx, List.filter]

theorem countSome_pos (l : List (Option ArtNode)) (b : Nat)
    (hs : (l.getD b none).isSome) : 1 ≤ countSome l := by
  induction l generalizing b with
  | nil => simp [List.getD] at hs
  | cons a tl ih =>
      cases b with
      | zero =>
          simp only [List.getD_cons_zero] at hs
          simp [countSome, List.filter, hs]
      | succ j =>
          have := ih j (by simpa using hs)
          simp only [countSome, List.filter] at this ⊢
          cases h : a.isSome <;> simp [h] <;> omega

theorem getD_replicate_self {α : Type} (n : Nat) (x : α) (i : Nat) :
    (List.replicate n x).getD i x = x := by
  rw [List.getD, List.get?_eq_getElem?, List.getElem?_replicate]
  split <;> rfl

/-- Proof-internal invariant for the byte scan that rebuilds a `Node48`
from a `Node256` in `eraseNode256`: after the first `n` bytes, the state
`(childIndex, children, count)` indexes exactly the non-null slots among
the first `n` entries of `cs1`. -/
def shrinkInv (cs1 : List (Option ArtNode)) (n : Nat)
    (st : List Nat × List (Option ArtNode) × Nat) : Prop :=
  st.1.length = 256 ∧ st.2.1.length = 48 ∧ st.2.2 = countSome (cs1.take n) ∧
  (∀ b2, n ≤ b2 ∨ cs1.getD b2 none = none → st.1.getD b2 emptyMarker = emptyMarker) ∧
  (∀ b2, b2 < n → ∀ c, cs1.getD b2 none = some c →
    st.1.getD b2 emptyMarker < st.2.2 ∧
    st.2.1.getD (st.1.getD b2 emptyMarker) none = some c)

theorem shrink_step_preserve (cs1 : List (Option ArtNode)) (hlen : cs1.length = 256)
    (hbound : countSome cs1 ≤ 47) (n : Nat)
    (st : List Nat × List (Option ArtNode) × Nat)
    (h : shrinkInv cs1 n st) (hn : n < 256) :
    shrinkInv cs1 (n + 1)
      (if (cs1.getD n none).isSome then
        (st.1.set n st.2.2, st.2.1.set st.2.2 (cs1.getD n none), st.2.2 + 1)
      else st) := by
  obtain ⟨h1, h2, h3, h4, h5⟩ := h
  have hcnt_le : countSome (cs1.take n) ≤ 47 :=
    le_trans (countSome_take_le cs1 n) hbound
  by_cases hs : (cs1.getD n none).isSome
  · rw [if_pos hs]
    rcases hsome : cs1.getD n none with _ | c
    · rw [hsome] at hs; simp at hs
    refine ⟨by simp [h1], by simp [h2], ?_, ?_, ?_⟩
    · simp only
      rw [countSome_take_succ cs1 n (by omega), if_pos hs]
      omega
    · intro b2 hb2
      rcases hb2 with hb2 | hb2
      · simp only
        rw [getD_set_ne _ _ _ _ _ (by omega)]
        exact h4 b2 (Or.inl (by omega))
      · simp only
        have hb2n : b2 ≠ n := by
          intro he
          rw [he, hsome] at hb2
          exact Option.noConfusion hb2
        rw [getD_set_ne _ _ _ _ _ (by omega)]
        exact h4 b2 (Or.inr hb2)
    · intro b2 hb2 c2 hc2
      by_cases hbn : b2 = n
      · subst hbn
        rw [hsome] at hc2
        injection hc2 with hc2
        subst hc2
        refine ⟨?_, ?_⟩
        · simp only
          rw [getD_set_self _ _ _ _ (by omega)]
          omega
        · simp only
          rw [getD_set_self _ _ _ _ (by omega), getD_set_self _ _ _ _ (by omega)]
      · have hb2lt : b2 < n := by omega
        obtain ⟨ha, hb⟩ := h5 b2 hb2lt c2 hc2
        simp only
        rw [getD_set_ne _ _ _ _ _ (by omega)]
        refine ⟨by omega, ?_⟩
        rw [getD_set_ne _ _ _ _ _ (by omega)]
        exact hb
  · rw [if_neg hs]
    have hnone : cs1.getD n none = none := by
      rcases hx : cs1.getD n none with _ | c
      · rfl
      · rw [hx] at hs; simp at hs
    refine ⟨h1, h2, ?_, ?_, ?_⟩
    · rw [countSome_take_succ cs1 n (by omega), if_neg hs]
      omega
    · intro b2 hb2
      rcases hb2 with hb2 | hb2
      · by_cases hbn : b2 = n
        · exact h4 b2 (Or.inr (hbn ▸ hnone))
        · exact h4 b2 (Or.inl (by omega))
      · exact h4 b2 (Or.inr hb2)
    · intro b2 hb2 c2 hc2
      by_cases hbn : b2 = n
      · rw [hbn, hnone] at hc2
        exact Option.noConfusion hc2
      · exact h5 b2 (by omega) c2 hc2

theorem shrink256_fold (cs1 : List (Option ArtNode)) (hlen : cs1.length = 256)
    (hbound : countSome cs1 ≤ 47) :
    ∀ n, n ≤ 256 →
      shrinkInv cs1 n
        ((List.range n).foldl
          (fun (st : List Nat × List (Option ArtNode) × Nat) b2 =>
            if (cs1.getD b2 none).isSome then
              (st.1.set b2 st.2.2, st.2.1.set st.2.2 (cs1.getD b2 none), st.2.2 + 1)
            else st)
          (List.replicate 256 emptyMarker, List.replicate 48 none, 0)) := by
  intro n
  induction n with
  | zero =>
      intro _
      refine ⟨by simp only [List.range_zero, List.foldl_nil, List.length_replicate],
        by simp only [List.range_zero, List.foldl_nil, List.length_replicate],
        by simp only [List.range_zero, List.foldl_nil, List.take_zero, countSome,
          List.filter_nil, List.length_nil],
        ?_, ?_⟩
      · intro b2 _
        simp only [List.range_zero, List.foldl_nil]
        exact getD_replicate_self 256 emptyMarker b2
      · intro b2 hb2
        omega
  | succ n ih =>
      intro hn
      rw [List.range_succ, List.foldl_append, List.foldl_cons, List.foldl_nil]
      exact shrink_step_preserve cs1 hlen hbound n _ (ih (by omega)) (by omega)

end ART

namespace ART

/-- **C8** (confirmed): erasing a present child from an N256 (whose count
field equals its number of non-null slots) nulls that byte's slot and
decrements `count`; the shrink to N48 fires exactly when the decremented
count equals 37 (the erase taking the count from 38 to 37), producing an
N48 with count 37 in which every remaining byte is mapped through
`childIndex` to its former child and every absent byte carries the
sentinel. -/
theorem claim_C8 (pl cnt : Nat) (p : List Nat) (cs : List (Option ArtNode)) (b : Nat)
    (hlen : cs.length = 256)
    (hsome : (cs.getD b none).isSome)
    (hcount : cnt = countSome cs) :
    (cnt ≠ 38 → eraseNode256 pl cnt p cs b = .node256 pl (cnt - 1) p (cs.set b none)) ∧
    (cnt = 38 →
      ∃ ci2 cs2,
        eraseNode256 pl cnt p cs b = .node48 pl 37 (copyPrefixL pl p) ci2 cs2 ∧
        (∀ b2 c, (cs.set b none).getD b2 none = some c →
          ci2.getD b2 emptyMarker ≠ emptyMarker ∧
          cs2.getD (ci2.getD b2 emptyMarker) none = some c) ∧
        (∀ b2, (cs.set b none).getD b2 none = none →
          ci2.getD b2 emptyMarker = emptyMarker)) := by
  have hpos : 1 ≤ countSome cs := countSome_pos cs b hsome
  have hset : countSome (cs.set b none) + 1 = countSome cs := countSome_set_none cs b hsome
  constructor
  · intro hne
    unfold eraseNode256
    rw [if_neg (by omega)]
  · intro h38
    subst hcount
    unfold eraseNode256
    rw [if_pos (by omega)]
    have hlen1 : (cs.set b none).length = 256 := by rw [List.length_set]; exact hlen
    have hbnd : countSome (cs.set b none) ≤ 47 := by omega
    obtain ⟨i1, i2, i3, i4, i5⟩ := shrink256_fold (cs.set b none) hlen1 hbnd 256 (le_refl _)
    have htake : (cs.set b none).take 256 = cs.set b none := by
      rw [← hlen1]
      exact List.take_length _
    rw [htake] at i3
    have h37 : countSome (cs.set b none) = 37 := by omega
    dsimp only
    set ST := (List.range 256).foldl
      (fun (st : List Nat × List (Option ArtNode) × Nat) b2 =>
        if ((cs.set b none).getD b2 none).isSome then
          (st.1.set b2 st.2.2, st.2.1.set st.2.2 ((cs.set b none).getD b2 none), st.2.2 + 1)
        else st)
      (List.replicate 256 emptyMarker, List.replicate 48 none, 0) with hST
    refine ⟨ST.1, ST.2.1, ?_, ?_, ?_⟩
    · rw [i3, h37]
    · intro b2 c hc
      have hb2 : b2 < 256 := by
        by_contra hge
        rw [List.getD_eq_default _ _ (by omega)] at hc
        exact Option.noConfusion hc
      obtain ⟨ha, hb⟩ := i5 b2 (by omega) c hc
      rw [i3, h37] at ha
      refine ⟨by unfold emptyMarker at ha ⊢; omega, hb⟩
    · intro b2 hnone2
      exact i4 b2 (Or.inr hnone2)

end ART

namespace ART

/-- A full-width child array with 38 leaf children, for instantiating C8. -/
def c8children : List (Option ArtNode) :=
  (List.range 256).map (fun i => if i < 38 then some (.leaf i) else none)

set_option maxRecDepth 8000 in
theorem claim_C8_witness :
    (38 ≠ 38 → eraseNode256 0 38 (List.replicate 9 0) c8children 0 =
      .node256 0 (38 - 1) (List.replicate 9 0) (c8children.set 0 none)) ∧
    (38 = 38 →
      ∃ ci2 cs2,
        eraseNode256 0 38 (List.replicate 9 0) c8children 0 =
          .node48 0 37 (copyPrefixL 0 (List.replicate 9 0)) ci2 cs2 ∧
        (∀ b2 c, (c8children.set 0 none).getD b2 none = some c →
          ci2.getD b2 emptyMarker ≠ emptyMarker ∧
          cs2.getD (ci2.getD b2 emptyMarker) none = some c) ∧
        (∀ b2, (c8children.set 0 none).getD b2 none = none →
          ci2.getD b2 emptyMarker = emptyMarker)) :=
  claim_C8 0 38 (List.replicate 9 0) c8children 0 rfl rfl rfl

end ART
